import Mathlib

/-!
Verification development for the ring outlier filter
(`sensing/pointcloud_preprocessor/src/outlier_filter/ring_outlier_filter_nodelet.cpp`).

The C++ core is embedded shallowly: decoded points are records of rational
numbers (the float arithmetic of the source is modelled over ℚ), the per-frame
algorithm `faster_filter` is a pure function from a configuration, a transform
and the decoded point list to its output buffers, and the visibility pass
`createBinaryImage` / `calculateFilledPixels` is embedded as a pure histogram
computation.  Out-of-bounds vector accesses of the source (which are undefined
behaviour resp. a thrown `std::out_of_range`) are modelled by `Except` / `Option`
failure values.
-/

namespace RingOutlierFilter

set_option maxRecDepth 100000

/-- A decoded input point, as read through the field-offset table of the source
(ring id, azimuth in centidegrees, distance, intensity, x, y, z).  Float32
values are modelled as rationals. -/
structure PointR where
  ring : Nat
  azimuth : ℚ
  distance : ℚ
  intensity : ℚ
  x : ℚ
  y : ℚ
  z : ℚ
deriving DecidableEq

/-- Default point used for the (never out-of-range in the proofs) `List.getD`
accesses of the embedding. -/
def ptDefault : PointR := ⟨0, 0, 0, 0, 0, 0, 0⟩

/-- An output point of the filter, `struct PointXYZI` (x, y, z, intensity). -/
structure PointXYZI where
  x : ℚ
  y : ℚ
  z : ℚ
  intensity : ℚ
deriving DecidableEq

/-- ROI mode of the visibility pass; the source keys the switch in
`createBinaryImage` by `roi_mode_map_[roi_mode_]` with `No_ROI ↦ 0`,
`Fixed_xyz_ROI ↦ 1`, `Fixed_azimuth_ROI ↦ 2` (default case: 0). -/
inductive RoiMode
  | noRoi
  | fixedXyzRoi
  | fixedAzimuthRoi
deriving DecidableEq

/-- The parameter snapshot of `RingOutlierFilterComponent` (constructor,
lines 50-72), as read by one frame under the scoped lock. -/
structure Config where
  distance_ratio : ℚ
  object_length_threshold : ℚ
  num_points_threshold : Nat
  max_rings_num : Nat
  publish_noise_points : Bool
  vertical_bins : Nat
  noise_threshold : Int
  roi_mode : RoiMode
  x_min : ℚ
  x_max : ℚ
  y_min : ℚ
  y_max : ℚ
  z_min : ℚ
  z_max : ℚ
  min_azimuth_deg : ℚ
  max_azimuth_deg : ℚ
  max_distance : ℚ
deriving DecidableEq

/-- The `TransformInfo` collaborator: a flag plus the first three rows of the
4×4 `eigen_transform` applied to `(x, y, z, 1)`. -/
structure TransformInfo where
  needTransform : Bool
  m00 : ℚ := 1
  m01 : ℚ := 0
  m02 : ℚ := 0
  m03 : ℚ := 0
  m10 : ℚ := 0
  m11 : ℚ := 1
  m12 : ℚ := 0
  m13 : ℚ := 0
  m20 : ℚ := 0
  m21 : ℚ := 0
  m22 : ℚ := 1
  m23 : ℚ := 0
deriving DecidableEq

/-- Output point construction of the compositor branches (lines 166-180,
186-200, 215-229, 235-248): either copy x, y, z or apply the rigid transform,
and carry the intensity field forward. -/
def toOutputPoint (ti : TransformInfo) (p : PointR) : PointXYZI :=
  if ti.needTransform then
    { x := ti.m00 * p.x + ti.m01 * p.y + ti.m02 * p.z + ti.m03
      y := ti.m10 * p.x + ti.m11 * p.y + ti.m12 * p.z + ti.m13
      z := ti.m20 * p.x + ti.m21 * p.y + ti.m22 * p.z + ti.m23
      intensity := p.intensity }
  else
    { x := p.x, y := p.y, z := p.z, intensity := p.intensity }

/-- Error outcomes of the ring partition loop.  The source (line 123) indexes
`ring2indices[ring]` without any bound check, so a ring id at or beyond
`max_rings_num` is an out-of-bounds access (`outOfBounds`); the `formatError`
alternative exists only to let the spec's error taxonomy be stated — the source
never produces it. -/
inductive PartitionError
  | formatError
  | outOfBounds
deriving DecidableEq

/-- Loop body of the ring partition (lines 121-124): each point index is
appended to the index list of its ring; an out-of-range ring id is the
out-of-bounds access of the source. -/
def ring2indicesAux : List Nat → Nat → List (List Nat) →
    Except PartitionError (List (List Nat))
  | [], _, part => .ok part
  | r :: rest, i, part =>
    if r < part.length then
      ring2indicesAux rest (i + 1) (part.set r (part.getD r [] ++ [i]))
    else
      .error .outOfBounds

/-- Ring partition of a frame (lines 113-124): `max_rings_num` initially empty
index lists, then one pass over the points in acquisition order. -/
def ring2indicesE (maxRings : Nat) (rings : List Nat) :
    Except PartitionError (List (List Nat)) :=
  ring2indicesAux rings 0 (List.replicate maxRings [])

/-- Azimuth difference of a consecutive pair (lines 147-148):
`next - current`, plus 36000 when negative. -/
def azimuthDiff (current next : ℚ) : ℚ :=
  if next - current < 0 then next - current + 36000 else next - current

/-- The `std::max` of two rationals: `(a < b) ? b : a`. -/
def fmax (a b : ℚ) : ℚ := if a < b then b else a

/-- The `std::min` of two rationals: `(b < a) ? b : a`. -/
def fmin (a b : ℚ) : ℚ := if b < a then b else a

/-- Continuity predicate of the walk segmenter (lines 155-158):
`max(d, d') < min(d, d') * distance_ratio && azimuth_diff < 100`. -/
def continuityB (cfg : Config) (current next : PointR) : Bool :=
  decide (fmax current.distance next.distance <
      fmin current.distance next.distance * cfg.distance_ratio) &&
  decide (azimuthDiff current.azimuth next.azimuth < 100)

/-- Continuity flags of all consecutive pairs of one ring, in order; flag `idx`
belongs to the pair `(indices[idx], indices[idx+1])` of the loop at line 136. -/
def pairsCont (cfg : Config) (pts : List PointR) : List Bool :=
  (pts.zip pts.tail).map (fun c => continuityB cfg c.1 c.2)

/-- The walk loop of lines 136-207 over the continuity flags: `idx` is the loop
variable, `wf` is `walk_first_idx`.  On a continuous pair the walk is extended;
otherwise the walk `[wf, idx]` is closed and the next walk starts at `idx + 1`.
Returns the closed walks in emission order together with the final
`walk_first_idx`. -/
def walkSegAux : List Bool → Nat → Nat → List (Nat × Nat) × Nat
  | [], _, wf => ([], wf)
  | b :: rest, idx, wf =>
    if b then walkSegAux rest (idx + 1) wf
    else
      ((wf, idx) :: (walkSegAux rest (idx + 1) (idx + 1)).1,
        (walkSegAux rest (idx + 1) (idx + 1)).2)

/-- All walks of one ring, each tagged with `true` when it is the tail walk
closed after the loop (line 209: emitted only if `walk_first_idx ≤
walk_last_idx`, where `walk_last_idx` has ended at `indices.size() - 2`).
Rings with fewer than 2 points are skipped (line 131). -/
def ringWalksTagged (cfg : Config) (pts : List PointR) : List (Nat × Nat × Bool) :=
  if pts.length < 2 then []
  else
    let s := walkSegAux (pairsCont cfg pts) 0 0
    if s.2 ≤ pts.length - 2 then
      s.1.map (fun w => (w.1, w.2, false)) ++ [(s.2, pts.length - 2, true)]
    else
      s.1.map (fun w => (w.1, w.2, false))

/-- The walks of one ring as `[first, last]` index ranges. -/
def ringWalks (cfg : Config) (pts : List PointR) : List (Nat × Nat) :=
  (ringWalksTagged cfg pts).map (fun w => (w.1, w.2.1))

/-- Squared Euclidean distance of two decoded points. -/
def distSq (p q : PointR) : ℚ :=
  (p.x - q.x) * (p.x - q.x) + (p.y - q.y) * (p.y - q.y) + (p.z - q.z) * (p.z - q.z)

/-- Modelled from the spec: `RingOutlierFilterComponent::isCluster` is declared
in the component's header, which is not among the sources here; §4.4 of the
spec defines it as accepting a walk when its point count is at least
`num_points_threshold` or its estimated spatial extent is at least
`object_length_threshold`.  The call sites (lines 162-164, 211-213) pass the
walk's first and last points and its size, so the extent is taken as the
distance between those two points, compared via squares to stay in ℚ. -/
def isCluster (cfg : Config) (firstP lastP : PointR) (walkSize : Nat) : Bool :=
  decide (cfg.num_points_threshold ≤ walkSize) ||
  decide (cfg.object_length_threshold * cfg.object_length_threshold ≤ distSq firstP lastP)

/-- Output contribution of one closed walk (lines 162-204 for walks closed in
the loop, 211-251 for the tail walk): a kept walk appends every member point to
the accepted buffer; a rejected walk closed in the loop appends `walk_size`
copies of its FIRST point to the noise buffer (the loop at lines 185-203 runs
over `i` but always reads `indices[walk_first_idx]`); a rejected tail walk
appends its member points except the last (strict `i < walk_last_idx`,
line 234).  Returns (accepted contribution, noise contribution). -/
def emitWalk (cfg : Config) (ti : TransformInfo) (pts : List PointR)
    (w : Nat × Nat × Bool) : List PointXYZI × List PointXYZI :=
  if isCluster cfg (pts.getD w.1 ptDefault) (pts.getD w.2.1 ptDefault)
      (w.2.1 + 1 - w.1) then
    (((pts.drop w.1).take (w.2.1 + 1 - w.1)).map (toOutputPoint ti), [])
  else if cfg.publish_noise_points then
    if w.2.2 then
      ([], ((pts.drop w.1).take (w.2.1 - w.1)).map (toOutputPoint ti))
    else
      ([], List.replicate (w.2.1 + 1 - w.1) (toOutputPoint ti (pts.getD w.1 ptDefault)))
  else ([], [])

/-- Accepted and noise output of one ring: the walks are closed in increasing
order and each contributes to the two (monotonically growing) buffers. -/
def processRing (cfg : Config) (ti : TransformInfo) (pts : List PointR) :
    List PointXYZI × List PointXYZI :=
  (ringWalksTagged cfg pts).foldl
    (fun acc w => (acc.1 ++ (emitWalk cfg ti pts w).1, acc.2 ++ (emitWalk cfg ti pts w).2))
    ([], [])

/-- Number of horizontal histogram bins; hardcoded to 36 in `createBinaryImage`
(line 370) and at the `calculateFilledPixels` call site (line 261). -/
def horizontalBins : Nat := 36

/-- Azimuth window `(max_azimuth, min_azimuth)` of the visibility pass
(lines 371-387): the azimuth-ROI mode uses the configured degree window times
100, every other mode the full `[0, 36000)` range. -/
def azimuthWindow (cfg : Config) : ℚ × ℚ :=
  match cfg.roi_mode with
  | .fixedAzimuthRoi => (cfg.max_azimuth_deg * 100, cfg.min_azimuth_deg * 100)
  | _ => (36000, 0)

/-- Truncating cast `uint32(x / n)` of a rational by a natural divisor: for
`x ≥ 0` this is exactly `⌊x / n⌋` (numerator over denominator times divisor in
ℕ); a negative `x` — undefined behaviour for the C++ float-to-uint cast — is
clamped to 0. -/
def natTrunc (x : ℚ) (n : Nat) : Nat :=
  x.num.toNat / (x.den * n)

/-- Horizontal resolution (lines 390-391):
`uint32((max_azimuth - min_azimuth) / horizontal_bins)`. -/
def horizontalResolution (cfg : Config) : Nat :=
  natTrunc ((azimuthWindow cfg).1 - (azimuthWindow cfg).2) horizontalBins

/-- ROI predicate of the histogram pass (lines 432-458), selected by the
integer-keyed mode: case 1 the xyz box (with the `y > y_max && y < y_min`
comparisons exactly as in the source), case 2 the azimuth/distance box,
default unconditional. -/
def roiPred (cfg : Config) (maxAz minAz : ℚ) (p : PointR) : Bool :=
  match cfg.roi_mode with
  | .fixedXyzRoi =>
    decide (p.x < cfg.x_max) && decide (p.x > cfg.x_min) &&
    decide (p.y > cfg.y_max) && decide (p.y < cfg.y_min) &&
    decide (p.z < cfg.z_max) && decide (p.z > cfg.z_min)
  | .fixedAzimuthRoi =>
    decide (p.azimuth < maxAz) && decide (p.azimuth > minAz) &&
    decide (p.distance < cfg.max_distance)
  | .noRoi => true

/-- The inner while loop of one sector (lines 423-469): while the (negative-
clamped) azimuth of the scan point is below the sector bound and at least two
points remain, count the point if the ROI predicate holds; the scan pointer is
advanced once more when the bound test fails, and the last point of a ring is
never examined (`current_temp_segment_index < size - 1`).  Returns the count
and the remaining suffix. -/
def sectorScan (pred : PointR → Bool) (bound : ℚ) : List PointR → Nat → Nat × List PointR
  | [], cnt => (cnt, [])
  | [p], cnt => (cnt, [p])
  | p :: q :: rest, cnt =>
    if (if p.azimuth < 0 then 0 else p.azimuth) < bound then
      sectorScan pred bound (q :: rest) (cnt + (if pred p then 1 else 0))
    else (cnt, q :: rest)

/-- Sector bound of column `i` (lines 425-429):
`(i + 1 + uint(min_azimuth / horizontal_resolution)) * horizontal_resolution`,
computed in unsigned integers and compared against the azimuth as a float. -/
def sectorBound (minAz : ℚ) (res : Nat) (i : Nat) : ℚ :=
  (((i + 1 + natTrunc minAz res) * res : Nat) : ℚ)

/-- The per-ring histogram loop (lines 419-477): for `i` ranging over the first
`horizontal_bins - 1` columns only (`i < noise_frequency.size() - 1`), scan
forward and record the write `(i, min count 255)` into the frequency image
row. -/
def ringWrites (cfg : Config) (maxAz minAz : ℚ) (res : Nat)
    (ringPts : List PointR) : List (Nat × Nat) :=
  ((List.range (horizontalBins - 1)).foldl
    (fun st i =>
      ((sectorScan (roiPred cfg maxAz minAz) (sectorBound minAz res i) st.1 0).2,
        st.2 ++ [(i, min (sectorScan (roiPred cfg maxAz minAz) (sectorBound minAz res i) st.1 0).1 255)]))
    (ringPts, [])).2

/-- Application of the recorded writes to a frequency-image row. -/
def applyWrites (row : List Nat) (ws : List (Nat × Nat)) : List Nat :=
  ws.foldl (fun r w => r.set w.1 w.2) row

/-- Grouping of the full cloud by ring for the visibility pass (lines 393-402):
`pcl_noise_ring_array` has `vertical_bins` entries and `.at(p.ring)` throws for
a ring id at or beyond that bound (modelled as `none`). -/
def groupByRingAux : List PointR → List (List PointR) → Option (List (List PointR))
  | [], part => some part
  | p :: rest, part =>
    if p.ring < part.length then
      groupByRingAux rest (part.set p.ring (part.getD p.ring [] ++ [p]))
    else none

/-- Ring grouping of `createBinaryImage`, starting from `vertical_bins` empty
rings. -/
def groupByRing (bins : Nat) (pts : List PointR) : Option (List (List PointR)) :=
  groupByRingAux pts (List.replicate bins [])

/-- Binarization of the frequency image (lines 482-483):
`cv::inRange(frequency_image, noise_threshold, 255)` marks a cell 255 when
`noise_threshold ≤ count ≤ 255` (both bounds inclusive), else 0. -/
def binarize (thr : Int) (img : List (List Nat)) : List (List Nat) :=
  img.map (fun row => row.map (fun c : Nat =>
    if thr ≤ (c : Int) ∧ (c : Int) ≤ 255 then 255 else 0))

/-- The visibility histogram pass `createBinaryImage` (lines 362-485): group
the cloud by ring, build the `vertical_bins × 36` frequency image (empty rings
are skipped, a nonempty ring writes its row at `ring_id`, the row of its first
point's ring), then binarize against `noise_threshold`.  `none` models the
`std::out_of_range` thrown by `.at` for a ring id beyond `vertical_bins`. -/
def createBinaryImage (cfg : Config) (pts : List PointR) : Option (List (List Nat)) :=
  match groupByRing cfg.vertical_bins pts with
  | none => none
  | some groups =>
    some (binarize cfg.noise_threshold (groups.foldl
      (fun img g =>
        match g with
        | [] => img
        | p :: _ =>
          img.set p.ring (applyWrites (img.getD p.ring [])
            (ringWrites cfg (azimuthWindow cfg).1 (azimuthWindow cfg).2
              (horizontalResolution cfg) g)))
      (List.replicate cfg.vertical_bins (List.replicate horizontalBins 0))))

/-- Number of nonzero cells of an image, `cv::countNonZero` (line 490). -/
def countNonZero (img : List (List Nat)) : Nat :=
  (img.map (fun row => (row.filter (fun c => decide (c ≠ 0))).length)).sum

/-- The filled-pixel fraction `calculateFilledPixels` (lines 487-494):
`countNonZero / (vertical_bins * horizontal_bins)`. -/
def calculateFilledPixels (img : List (List Nat)) (vBins hBins : Nat) : ℚ :=
  (countNonZero img : ℚ) / ((vBins * hBins : Nat) : ℚ)

/-- Result of one frame: the accepted buffer, and — only when noise points are
published — the noise buffer, the visibility scalar and the binary histogram
image (lines 254-274). -/
structure FilterResult where
  accepted : List PointXYZI
  noise : Option (List PointXYZI)
  visibility : Option ℚ
  image : Option (List (List Nat))
deriving DecidableEq

/-- The per-frame algorithm `faster_filter` (lines 82-293): partition the
points by ring, close and emit the walks of every ring into the accepted and
noise buffers, and, when `publish_noise_points` is set, run the visibility pass
on the full input cloud and publish noise buffer, histogram image and the
visibility scalar `1 - calculateFilledPixels(image, vertical_bins, 36)`. -/
def faster_filter (cfg : Config) (ti : TransformInfo) (pts : List PointR) :
    Except PartitionError FilterResult :=
  match ring2indicesE cfg.max_rings_num (pts.map PointR.ring) with
  | .error e => .error e
  | .ok part =>
    let ringPts := part.map (fun idxs => idxs.map (fun i => pts.getD i ptDefault))
    let acc := (ringPts.map (fun rp => (processRing cfg ti rp).1)).flatten
    let noi := (ringPts.map (fun rp => (processRing cfg ti rp).2)).flatten
    if cfg.publish_noise_points then
      match createBinaryImage cfg pts with
      | none => .error .outOfBounds
      | some img =>
        .ok { accepted := acc, noise := some noi,
              visibility := some (1 - calculateFilledPixels img cfg.vertical_bins horizontalBins),
              image := some img }
    else
      .ok { accepted := acc, noise := none, visibility := none, image := none }

/-- Final buffer size left by `setUpPointCloudFormat` (lines 338-360): the data
is first resized to the written byte count `points_size` (line 342) and then
resized again to `point_step * input->width` (line 348), which is the size the
buffer keeps. -/
def setUpPointCloudFormatSize (inputWidth pointStep pointsSize : Nat) : Nat :=
  let firstResize := pointsSize
  let secondResize := pointStep * inputWidth
  secondResize

/-- A configuration with the source's default thresholds (`distance_ratio`
1.03, `object_length_threshold` 0.1, `num_points_threshold` 4,
`noise_threshold` 2), one ring slot, noise output enabled, and no ROI. -/
def testCfg : Config :=
  { distance_ratio := mkRat 103 100
    object_length_threshold := mkRat 1 10
    num_points_threshold := 4
    max_rings_num := 1
    publish_noise_points := true
    vertical_bins := 1
    noise_threshold := 2
    roi_mode := .noRoi
    x_min := -12, x_max := 18, y_min := -2, y_max := 2, z_min := 0, z_max := 10
    min_azimuth_deg := 135, max_azimuth_deg := 225
    max_distance := 12 }

/-- Identity transform with `need_transform` unset. -/
def ti0 : TransformInfo := { needTransform := false }

/-- First point of the 5-point round-trip frame. -/
def c1a : PointR := ⟨0, 0, 1, 7, 1, 0, 0⟩

/-- Second point of the 5-point round-trip frame. -/
def c1b : PointR := ⟨0, 10, 1, 7, 2, 0, 0⟩

/-- Third point of the 5-point round-trip frame. -/
def c1c : PointR := ⟨0, 20, 1, 7, 3, 0, 0⟩

/-- Fourth point of the 5-point round-trip frame. -/
def c1d : PointR := ⟨0, 30, 1, 7, 4, 0, 0⟩

/-- Fifth point of the 5-point round-trip frame. -/
def c1e : PointR := ⟨0, 40, 1, 7, 5, 0, 0⟩

/-- Synthetic single-ring frame of 5 points with uniformly small azimuth and
distance deltas: continuity holds for every consecutive pair. -/
def c1Pts : List PointR := [c1a, c1b, c1c, c1d, c1e]

/-- First point of the 3-point rejection scenario. -/
def c2a : PointR := ⟨0, 0, 1, 5, 0, 0, 0⟩

/-- Second point of the 3-point rejection scenario (spatially coincident with
the first, so the walk extent is zero). -/
def c2b : PointR := ⟨0, 10, 1, 5, 0, 0, 0⟩

/-- Third point of the 3-point rejection scenario: its azimuth difference to
the second point is 150 ≥ 100, breaking continuity. -/
def c2c : PointR := ⟨0, 160, 1, 5, 0, 0, 0⟩

/-- Three-point single-ring frame whose pair 2→3 has azimuth difference 150. -/
def c2Pts : List PointR := [c2a, c2b, c2c]

/-- The test configuration with noise output disabled. -/
def cfgF : Config := { testCfg with publish_noise_points := false }

/-- The test configuration with two ring slots. -/
def cfg2R : Config := { testCfg with max_rings_num := 2 }

/-- Two-point frame on two distinct rings. -/
def pts3 : List PointR := [⟨0, 0, 1, 1, 0, 0, 0⟩, ⟨1, 5, 1, 1, 0, 0, 0⟩]

/-- Degenerate azimuth window: the azimuth ROI mode with
`min_azimuth_deg = max_azimuth_deg`, so the horizontal resolution is zero. -/
def degCfg : Config := { testCfg with roi_mode := .fixedAzimuthRoi, max_azimuth_deg := 135 }

/-- A single in-range point for the degenerate-window evaluation. -/
def degPt : PointR := ⟨0, 18000, 5, 1, 0, 0, 0⟩

/-- Two-point ring for the histogram pass: both points fall into sector 0 under
the full azimuth window. -/
def c7Pts : List PointR := [⟨0, 500, 1, 0, 0, 0, 0⟩, ⟨0, 600, 1, 0, 0, 0, 0⟩]

/-- The walk list `ws` consists of consecutive index intervals: it starts at
`a`, each walk `[f, l]` is nonempty (`f ≤ l`) and is followed immediately by a
walk starting at `l + 1`, and the intervals jointly cover `[a, b-1]` (for
`ws = []` this forces `b = a`). -/
def ConsecFrom : List (Nat × Nat) → Nat → Nat → Prop
  | [], a, b => b = a
  | w :: rest, a, b => w.1 = a ∧ a ≤ w.2 ∧ ConsecFrom rest (w.2 + 1) b

/-- Total number of occurrences of the index `t` over all partition slots. -/
def countSum (t : Nat) (part : List (List Nat)) : Nat :=
  (part.map (fun l => l.count t)).sum

/-- The index list `[s, s+1, ..., s+n-1]`. -/
def idxFrom (s : Nat) : Nat → List Nat
  | 0 => []
  | n + 1 => s :: idxFrom (s + 1) n

/-- Accepted-buffer accessor on the frame outcome. -/
def acceptedOf (r : Except PartitionError FilterResult) : Option (List PointXYZI) :=
  r.toOption.map FilterResult.accepted

/-- Noise-buffer accessor on the frame outcome. -/
def noiseOf (r : Except PartitionError FilterResult) : Option (List PointXYZI) :=
  r.toOption.bind FilterResult.noise

theorem consecFrom_le {ws : List (Nat × Nat)} {a b : Nat} (h : ConsecFrom ws a b) :
    a ≤ b := by
  induction ws generalizing a with
  | nil => simp [ConsecFrom] at h; omega
  | cons w rest ih =>
    obtain ⟨h1, h2, h3⟩ := h
    have := ih h3
    omega

theorem consecFrom_append {xs ys : List (Nat × Nat)} {a b c : Nat}
    (hx : ConsecFrom xs a b) (hy : ConsecFrom ys b c) :
    ConsecFrom (xs ++ ys) a c := by
  induction xs generalizing a with
  | nil => simp [ConsecFrom] at hx; subst hx; simpa using hy
  | cons w rest ih =>
    obtain ⟨h1, h2, h3⟩ := hx
    exact ⟨h1, h2, ih h3⟩

theorem consecFrom_bounds {ws : List (Nat × Nat)} {a b : Nat} (h : ConsecFrom ws a b) :
    ∀ w ∈ ws, a ≤ w.1 ∧ w.1 ≤ w.2 ∧ w.2 < b := by
  induction ws generalizing a with
  | nil => simp
  | cons w rest ih =>
    obtain ⟨h1, h2, h3⟩ := h
    intro u hu
    rcases List.mem_cons.mp hu with rfl | hu
    · exact ⟨le_of_eq h1.symm, by omega, by have := consecFrom_le h3; omega⟩
    · have := ih h3 u hu
      omega

theorem consecFrom_mem_unique {ws : List (Nat × Nat)} {a b : Nat}
    (h : ConsecFrom ws a b) {k : Nat} (ha : a ≤ k) (hb : k < b) :
    ∃! w : Nat × Nat, w ∈ ws ∧ w.1 ≤ k ∧ k ≤ w.2 := by
  induction ws generalizing a with
  | nil => simp [ConsecFrom] at h; omega
  | cons w rest ih =>
    obtain ⟨h1, h2, h3⟩ := h
    by_cases hk : k ≤ w.2
    · refine ⟨w, ⟨List.mem_cons_self w rest, by omega, hk⟩, ?_⟩
      intro u hu
      rcases List.mem_cons.mp hu.1 with rfl | hmem
      · rfl
      · have := consecFrom_bounds h3 u hmem
        omega
    · have hk2 : w.2 + 1 ≤ k := by omega
      obtain ⟨u, hu, huniq⟩ := ih h3 hk2
      refine ⟨u, ⟨List.mem_cons_of_mem w hu.1, hu.2.1, hu.2.2⟩, ?_⟩
      intro v hv
      rcases List.mem_cons.mp hv.1 with rfl | hmem
      · omega
      · exact huniq v ⟨hmem, hv.2.1, hv.2.2⟩

theorem walkSegAux_spec (conts : List Bool) :
    ∀ idx wf, wf ≤ idx →
      ConsecFrom (walkSegAux conts idx wf).1 wf (walkSegAux conts idx wf).2 ∧
      (walkSegAux conts idx wf).2 ≤ idx + conts.length := by
  induction conts with
  | nil => intro idx wf hw; simp [walkSegAux, ConsecFrom]; omega
  | cons b rest ih =>
    intro idx wf hw
    by_cases hb : b = true
    · subst hb
      simp only [walkSegAux, if_true]
      have := ih (idx + 1) wf (by omega)
      exact ⟨this.1, by simpa [Nat.add_assoc, Nat.add_comm 1 rest.length] using this.2⟩
    · simp only [Bool.not_eq_true] at hb
      subst hb
      simp only [walkSegAux, if_false, Bool.false_eq_true]
      have := ih (idx + 1) (idx + 1) le_rfl
      refine ⟨⟨rfl, hw, this.1⟩, ?_⟩
      have := this.2
      simp only [List.length_cons]
      omega

theorem pairsCont_length (cfg : Config) (pts : List PointR) :
    (pairsCont cfg pts).length = pts.length - 1 := by
  simp [pairsCont, List.length_zip, List.length_tail]

theorem ringWalks_eq (cfg : Config) (pts : List PointR) :
    ringWalks cfg pts =
      if pts.length < 2 then []
      else if (walkSegAux (pairsCont cfg pts) 0 0).2 ≤ pts.length - 2 then
        (walkSegAux (pairsCont cfg pts) 0 0).1 ++
          [((walkSegAux (pairsCont cfg pts) 0 0).2, pts.length - 2)]
      else (walkSegAux (pairsCont cfg pts) 0 0).1 := by
  unfold ringWalks ringWalksTagged
  by_cases h : pts.length < 2
  · simp [h]
  · simp only [h, if_false]
    have hid : ∀ l : List (Nat × Nat),
        l.map ((fun w : Nat × Nat × Bool => (w.1, w.2.1)) ∘
          fun w : Nat × Nat => (w.1, w.2, false)) = l := by
      intro l
      induction l with
      | nil => rfl
      | cons x xs ih => simpa [Function.comp] using ih
    by_cases h2 : (walkSegAux (pairsCont cfg pts) 0 0).2 ≤ pts.length - 2 <;>
      simp [h2, Function.comp, hid]

theorem ringWalks_consecFrom (cfg : Config) (pts : List PointR)
    (h2 : 2 ≤ pts.length) :
    ConsecFrom (ringWalks cfg pts) 0 (pts.length - 1) := by
  have hlen := pairsCont_length cfg pts
  have hspec := walkSegAux_spec (pairsCont cfg pts) 0 0 le_rfl
  rw [ringWalks_eq]
  have hnot : ¬ pts.length < 2 := by omega
  simp only [hnot, if_false]
  by_cases htail : (walkSegAux (pairsCont cfg pts) 0 0).2 ≤ pts.length - 2
  · simp only [htail, if_true]
    refine consecFrom_append hspec.1 ?_
    refine ⟨rfl, htail, ?_⟩
    show pts.length - 1 = pts.length - 2 + 1
    omega
  · simp only [htail, if_false]
    have : (walkSegAux (pairsCont cfg pts) 0 0).2 = pts.length - 1 := by
      have := hspec.2
      omega
    rw [this] at hspec
    exact hspec.1

theorem countSum_nil (t : Nat) : countSum t [] = 0 := rfl

theorem countSum_cons (t : Nat) (l : List Nat) (part : List (List Nat)) :
    countSum t (l :: part) = l.count t + countSum t part := by
  simp [countSum]

theorem countSum_replicate_nil (t n : Nat) :
    countSum t (List.replicate n []) = 0 := by
  induction n with
  | zero => rfl
  | succ n ih => simpa [List.replicate_succ, countSum_cons] using ih

theorem countSum_set_append (t : Nat) (part : List (List Nat)) (r x : Nat)
    (hr : r < part.length) :
    countSum t (part.set r (part.getD r [] ++ [x])) =
      countSum t part + (if x = t then 1 else 0) := by
  induction part generalizing r with
  | nil => simp at hr
  | cons h tl ih =>
    cases r with
    | zero =>
      simp only [List.set_cons_zero, List.getD_cons_zero, countSum_cons,
        List.count_append]
      have : List.count t [x] = if x = t then 1 else 0 := by
        simp [List.count_singleton', List.count_cons, List.count_nil]
      omega
    | succ r =>
      simp only [List.set_cons_succ, List.getD_cons_succ, countSum_cons]
      have := ih r (by simpa using hr)
      omega

theorem ring2indicesAux_count (rings : List Nat) :
    ∀ (i : Nat) (part part' : List (List Nat)),
      ring2indicesAux rings i part = .ok part' → ∀ t : Nat,
      countSum t part' =
        countSum t part + (if i ≤ t ∧ t < i + rings.length then 1 else 0) := by
  induction rings with
  | nil =>
    intro i part part' h t
    simp only [ring2indicesAux] at h
    cases h
    have : ¬ (i ≤ t ∧ t < i + 0) := by omega
    simp [this]
  | cons r rest ih =>
    intro i part part' h t
    simp only [ring2indicesAux] at h
    by_cases hr : r < part.length
    · rw [if_pos hr] at h
      have hrec := ih (i + 1) _ _ h t
      have hset := countSum_set_append t part r i hr
      rw [hrec, hset]
      simp only [List.length_cons]
      split_ifs <;> omega
    · rw [if_neg hr] at h
      cases h

theorem ring2indicesAux_ok (rings : List Nat) :
    ∀ (i : Nat) (part : List (List Nat)), (∀ r ∈ rings, r < part.length) →
      ∃ part', ring2indicesAux rings i part = .ok part' ∧
        part'.length = part.length := by
  induction rings with
  | nil => intro i part _; exact ⟨part, rfl, rfl⟩
  | cons r rest ih =>
    intro i part hall
    have hr : r < part.length := hall r (List.mem_cons_self r rest)
    have hlen : (part.set r (part.getD r [] ++ [i])).length = part.length :=
      List.length_set part r _
    obtain ⟨part', h1, h2⟩ := ih (i + 1) (part.set r (part.getD r [] ++ [i]))
      (by intro u hu; rw [hlen]; exact hall u (List.mem_cons_of_mem r hu))
    exact ⟨part', by simpa [ring2indicesAux, hr] using h1, by omega⟩

theorem ring2indicesAux_oob (rings : List Nat) :
    ∀ (i : Nat) (part : List (List Nat)), (∃ r ∈ rings, part.length ≤ r) →
      ring2indicesAux rings i part = .error .outOfBounds := by
  induction rings with
  | nil => intro i part h; simp at h
  | cons r rest ih =>
    intro i part h
    by_cases hr : r < part.length
    · obtain ⟨u, hu, hule⟩ := h
      rcases List.mem_cons.mp hu with rfl | hmem
      · omega
      · have : ∃ v ∈ rest, (part.set r (part.getD r [] ++ [i])).length ≤ v :=
          ⟨u, hmem, by simpa [List.length_set] using hule⟩
        simpa [ring2indicesAux, hr] using ih (i + 1) _ this
    · simp [ring2indicesAux, hr]

theorem ring2indicesE_count (maxRings : Nat) (rings : List Nat)
    (part' : List (List Nat)) (h : ring2indicesE maxRings rings = .ok part')
    (t : Nat) (ht : t < rings.length) : countSum t part' = 1 := by
  have := ring2indicesAux_count rings 0 _ _ h t
  rw [countSum_replicate_nil] at this
  simpa [Nat.zero_add, ht] using this

theorem ring2indicesE_ok (maxRings : Nat) (rings : List Nat)
    (h : ∀ r ∈ rings, r < maxRings) :
    ∃ part', ring2indicesE maxRings rings = .ok part' := by
  obtain ⟨part', h1, _⟩ := ring2indicesAux_ok rings 0 (List.replicate maxRings [])
    (by simpa [List.length_replicate] using h)
  exact ⟨part', h1⟩

theorem ring2indicesE_oob (maxRings : Nat) (rings : List Nat)
    (h : ∃ r ∈ rings, maxRings ≤ r) :
    ring2indicesE maxRings rings = .error .outOfBounds :=
  ring2indicesAux_oob rings 0 (List.replicate maxRings [])
    (by simpa [List.length_replicate] using h)

theorem groupByRingAux_isSome (pts : List PointR) :
    ∀ part : List (List PointR), (∀ p ∈ pts, p.ring < part.length) →
      ∃ g, groupByRingAux pts part = some g := by
  induction pts with
  | nil => intro part _; exact ⟨part, rfl⟩
  | cons p rest ih =>
    intro part hall
    have hp : p.ring < part.length := hall p (List.mem_cons_self p rest)
    obtain ⟨g, hg⟩ := ih (part.set p.ring (part.getD p.ring [] ++ [p]))
      (by intro u hu
          rw [List.length_set]
          exact hall u (List.mem_cons_of_mem p hu))
    exact ⟨g, by simpa [groupByRingAux, hp] using hg⟩

theorem createBinaryImage_isSome (cfg : Config) (pts : List PointR)
    (h : ∀ p ∈ pts, p.ring < cfg.vertical_bins) :
    ∃ img, createBinaryImage cfg pts = some img := by
  obtain ⟨g, hg⟩ := groupByRingAux_isSome pts (List.replicate cfg.vertical_bins [])
    (by simpa [List.length_replicate] using h)
  unfold createBinaryImage groupByRing
  rw [hg]
  exact ⟨_, rfl⟩

theorem flatten_replicate_nil {α : Type} (k : Nat) :
    (List.replicate k ([] : List α)).flatten = [] := by
  induction k with
  | zero => rfl
  | succ k ih => simp [List.replicate_succ, ih]

theorem ring2indicesAux_all_zero (rings : List Nat) :
    ∀ (i : Nat) (cur : List Nat) (tailPart : List (List Nat)),
      (∀ r ∈ rings, r = 0) →
      ring2indicesAux rings i (cur :: tailPart) =
        .ok ((cur ++ idxFrom i rings.length) :: tailPart) := by
  induction rings with
  | nil => intro i cur tailPart _; simp [ring2indicesAux, idxFrom]
  | cons r rest ih =>
    intro i cur tailPart hall
    have hr : r = 0 := hall r (List.mem_cons_self r rest)
    subst hr
    have := ih (i + 1) (cur ++ [i]) tailPart
      (fun u hu => hall u (List.mem_cons_of_mem 0 hu))
    simp only [ring2indicesAux, List.length_cons, Nat.zero_lt_succ, if_true,
      List.set_cons_zero, List.getD_cons_zero]
    rw [this]
    simp [idxFrom, List.append_assoc]

theorem ring2indicesE_all_zero (maxRings : Nat) (hM : 0 < maxRings)
    (rings : List Nat) (hall : ∀ r ∈ rings, r = 0) :
    ring2indicesE maxRings rings =
      .ok (idxFrom 0 rings.length :: List.replicate (maxRings - 1) []) := by
  obtain ⟨k, rfl⟩ : ∃ k, maxRings = k + 1 :=
    ⟨maxRings - 1, by omega⟩
  unfold ring2indicesE
  rw [List.replicate_succ]
  simpa using ring2indicesAux_all_zero rings 0 [] (List.replicate k []) hall

theorem ringWrites_foldl_cols (cfg : Config) (maxAz minAz : ℚ) (res : Nat)
    (l : List Nat) :
    ∀ st : List PointR × List (Nat × Nat),
      ((l.foldl (fun st i =>
          ((sectorScan (roiPred cfg maxAz minAz) (sectorBound minAz res i) st.1 0).2,
            st.2 ++ [(i, min (sectorScan (roiPred cfg maxAz minAz) (sectorBound minAz res i) st.1 0).1 255)]))
        st).2).map Prod.fst = st.2.map Prod.fst ++ l := by
  induction l with
  | nil => intro st; simp
  | cons i rest ih =>
    intro st
    rw [List.foldl_cons, ih]
    simp

theorem ringWrites_cols (cfg : Config) (maxAz minAz : ℚ) (res : Nat)
    (ringPts : List PointR) :
    (ringWrites cfg maxAz minAz res ringPts).map Prod.fst =
      List.range (horizontalBins - 1) := by
  unfold ringWrites
  rw [ringWrites_foldl_cols]
  simp

theorem countNonZero_le_total (img : List (List Nat)) :
    countNonZero img ≤ (img.map List.length).sum := by
  induction img with
  | nil => simp [countNonZero]
  | cons row rest ih =>
    simp only [countNonZero, List.map_cons, List.sum_cons] at *
    have : (row.filter (fun c => decide (c ≠ 0))).length ≤ row.length :=
      List.length_filter_le _ row
    omega

theorem map_length_sum (img : List (List Nat)) (v h : Nat)
    (hv : img.length = v) (hh : ∀ r ∈ img, r.length = h) :
    (img.map List.length).sum = v * h := by
  induction img generalizing v with
  | nil => simp [← hv]
  | cons row rest ih =>
    simp only [List.map_cons, List.sum_cons]
    have hr : row.length = h := hh row (List.mem_cons_self row rest)
    have := ih (rest.length) rfl (fun r hr => hh r (List.mem_cons_of_mem row hr))
    subst hv
    simp only [List.length_cons]
    rw [hr, this]
    ring

theorem binarize_lengths (thr : Int) (img : List (List Nat)) :
    (binarize thr img).map List.length = img.map List.length := by
  simp [binarize, Function.comp]

theorem countNonZero_binarize_all_filled (thr : Int) (img : List (List Nat))
    (h : ∀ row ∈ img, ∀ c ∈ row, thr ≤ (c : Int) ∧ (c : Int) ≤ 255) :
    countNonZero (binarize thr img) = (img.map List.length).sum := by
  induction img with
  | nil => rfl
  | cons row rest ih =>
    simp only [binarize, List.map_cons, countNonZero, List.sum_cons] at *
    have hrow : (row.map (fun c : Nat => if thr ≤ (c : Int) ∧ (c : Int) ≤ 255 then 255 else 0)).filter
        (fun c => decide (c ≠ 0)) =
        row.map (fun c : Nat => if thr ≤ (c : Int) ∧ (c : Int) ≤ 255 then 255 else 0) := by
      rw [List.filter_eq_self]
      intro a ha
      obtain ⟨c, hc, rfl⟩ := List.mem_map.mp ha
      have := h row (List.mem_cons_self row rest) c hc
      simp [this]
    rw [hrow, List.length_map]
    have := ih (fun r hr c hc => h r (List.mem_cons_of_mem row hr) c hc)
    simp only [countNonZero] at this
    omega

theorem countNonZero_binarize_all_empty (thr : Int) (img : List (List Nat))
    (h : ∀ row ∈ img, ∀ c ∈ row, (c : Int) < thr) :
    countNonZero (binarize thr img) = 0 := by
  induction img with
  | nil => rfl
  | cons row rest ih =>
    simp only [binarize, List.map_cons, countNonZero, List.sum_cons] at *
    have hrow : (row.map (fun c : Nat => if thr ≤ (c : Int) ∧ (c : Int) ≤ 255 then 255 else 0)).filter
        (fun c => decide (c ≠ 0)) = [] := by
      rw [List.filter_eq_nil_iff]
      intro a ha
      obtain ⟨c, hc, rfl⟩ := List.mem_map.mp ha
      have := h row (List.mem_cons_self row rest) c hc
      have hcond : ¬ (thr ≤ (c : Int) ∧ (c : Int) ≤ 255) := by omega
      simp only [hcond, if_false]
      simp
    rw [hrow]
    have := ih (fun r hr c hc => h r (List.mem_cons_of_mem row hr) c hc)
    simp only [countNonZero] at this
    simpa using this

theorem map_getD_idxFrom {α : Type} (pts : List α) (d : α) :
    ∀ (k s : Nat), s + k ≤ pts.length →
      (idxFrom s k).map (fun i => pts.getD i d) = (pts.drop s).take k := by
  intro k
  induction k with
  | zero => intro s _; simp [idxFrom]
  | succ k ih =>
    intro s hs
    have hsl : s < pts.length := by omega
    have hget : pts.getD s d = pts.get ⟨s, hsl⟩ := by
      simp [List.getD_eq_getElem?_getD, List.getElem?_eq_getElem hsl]
    have hdrop : pts.drop s = pts.get ⟨s, hsl⟩ :: pts.drop (s + 1) := by
      rw [List.drop_eq_getElem_cons hsl]
      rfl
    simp only [idxFrom, List.map_cons]
    rw [hget, hdrop, ih (s + 1) (by omega), List.take_succ_cons]

theorem map_getD_idxFrom_full {α : Type} (pts : List α) (d : α) :
    (idxFrom 0 pts.length).map (fun i => pts.getD i d) = pts := by
  rw [map_getD_idxFrom pts d pts.length 0 (by omega)]
  simp

theorem faster_filter_single_ring (cfg : Config) (ti : TransformInfo)
    (pts : List PointR) (hM : 0 < cfg.max_rings_num)
    (hall : ∀ p ∈ pts, p.ring = 0)
    (hpub : cfg.publish_noise_points = true)
    (hV : 0 < cfg.vertical_bins) :
    ∃ res img, faster_filter cfg ti pts = .ok res ∧
      createBinaryImage cfg pts = some img ∧
      res.accepted = (processRing cfg ti pts).1 ∧
      res.noise = some (processRing cfg ti pts).2 := by
  have hmap : ∀ r ∈ pts.map PointR.ring, r = 0 := by
    intro r hr
    obtain ⟨p, hp, rfl⟩ := List.mem_map.mp hr
    exact hall p hp
  have hpart := ring2indicesE_all_zero cfg.max_rings_num hM (pts.map PointR.ring) hmap
  obtain ⟨img, himg⟩ := createBinaryImage_isSome cfg pts
    (by intro p hp; rw [hall p hp]; exact hV)
  have heq : faster_filter cfg ti pts =
      .ok { accepted := (processRing cfg ti pts).1,
            noise := some (processRing cfg ti pts).2,
            visibility := some (1 - calculateFilledPixels img cfg.vertical_bins horizontalBins),
            image := some img } := by
    unfold faster_filter
    rw [hpart, List.length_map, hpub, himg]
    simp only [List.map_cons, List.map_replicate, if_true,
      map_getD_idxFrom_full, List.flatten_cons]
    have h1 : processRing cfg ti [] = ([], []) := rfl
    simp [flatten_replicate_nil, h1]
  exact ⟨_, img, heq, himg, rfl, rfl⟩

theorem ringWalksTagged_five (cfg : Config) (p0 p1 p2 p3 p4 : PointR)
    (hc0 : continuityB cfg p0 p1 = true) (hc1 : continuityB cfg p1 p2 = true)
    (hc2 : continuityB cfg p2 p3 = true) (hc3 : continuityB cfg p3 p4 = true) :
    ringWalksTagged cfg [p0, p1, p2, p3, p4] = [(0, 3, true)] := by
  have hpc : pairsCont cfg [p0, p1, p2, p3, p4] =
      [continuityB cfg p0 p1, continuityB cfg p1 p2,
        continuityB cfg p2 p3, continuityB cfg p3 p4] := rfl
  unfold ringWalksTagged
  rw [hpc, hc0, hc1, hc2, hc3]
  simp [walkSegAux]

theorem processRing_five (cfg : Config) (ti : TransformInfo)
    (p0 p1 p2 p3 p4 : PointR)
    (hc0 : continuityB cfg p0 p1 = true) (hc1 : continuityB cfg p1 p2 = true)
    (hc2 : continuityB cfg p2 p3 = true) (hc3 : continuityB cfg p3 p4 = true)
    (hthr : cfg.num_points_threshold ≤ 4) :
    processRing cfg ti [p0, p1, p2, p3, p4] =
      ([toOutputPoint ti p0, toOutputPoint ti p1, toOutputPoint ti p2,
        toOutputPoint ti p3], []) := by
  have hcl : isCluster cfg p0 p3 4 = true := by
    unfold isCluster
    rw [decide_eq_true hthr]
    simp
  unfold processRing
  rw [ringWalksTagged_five cfg p0 p1 p2 p3 p4 hc0 hc1 hc2 hc3]
  simp only [List.foldl_cons, List.foldl_nil]
  unfold emitWalk
  simp only []
  norm_num [hcl]

theorem ringWalksTagged_three (cfg : Config) (p0 p1 p2 : PointR)
    (hc0 : continuityB cfg p0 p1 = true) (hb : continuityB cfg p1 p2 = false) :
    ringWalksTagged cfg [p0, p1, p2] = [(0, 1, false)] := by
  have hpc : pairsCont cfg [p0, p1, p2] =
      [continuityB cfg p0 p1, continuityB cfg p1 p2] := rfl
  unfold ringWalksTagged
  rw [hpc, hc0, hb]
  simp [walkSegAux]

theorem processRing_three (cfg : Config) (ti : TransformInfo)
    (p0 p1 p2 : PointR)
    (hc0 : continuityB cfg p0 p1 = true) (hb : continuityB cfg p1 p2 = false)
    (hrej : isCluster cfg p0 p1 2 = false)
    (hpub : cfg.publish_noise_points = true) :
    processRing cfg ti [p0, p1, p2] =
      ([], [toOutputPoint ti p0, toOutputPoint ti p0]) := by
  unfold processRing
  rw [ringWalksTagged_three cfg p0 p1 p2 hc0 hb]
  simp only [List.foldl_cons, List.foldl_nil]
  unfold emitWalk
  simp only []
  norm_num [hrej, hpub]
  rfl

/-- C9: for every pair of raw azimuth values in [0, 36000), the azimuth
difference computed by the walk segmenter (next minus current, plus 36000 if
negative) lies in [0, 36000). -/
theorem C9_azimuth_diff_range (c n : ℚ) (hc0 : 0 ≤ c) (hc1 : c < 36000)
    (hn0 : 0 ≤ n) (hn1 : n < 36000) :
    0 ≤ azimuthDiff c n ∧ azimuthDiff c n < 36000 := by
  unfold azimuthDiff
  split <;> constructor <;> linarith

/-- Witness for C9 at the wrap-around pair of the claim: current = 35950,
next = 50 gives a difference of 100, inside [0, 36000). -/
theorem C9_azimuth_diff_range_witness :
    (0 ≤ azimuthDiff 35950 50 ∧ azimuthDiff 35950 50 < 36000) ∧
      azimuthDiff 35950 50 = 100 :=
  ⟨C9_azimuth_diff_range 35950 50 (by norm_num) (by norm_num) (by norm_num)
      (by norm_num),
    by with_unfolding_all decide⟩

/-- C4 is a code bug: `setUpPointCloudFormat` first trims the buffer to the
written byte count (line 342) but then resizes it back to
`point_step * input->width` (line 348); for an input of width 5, stride 16 and
64 written bytes (4 emitted points) the exposed buffer holds 80 bytes — the
input's point count times the stride, for every written byte count — never the
trimmed size 64. -/
theorem C4_setUpPointCloudFormat_eval :
    (∀ pointsSize : Nat, setUpPointCloudFormatSize 5 16 pointsSize = 80) ∧
    setUpPointCloudFormatSize 5 16 64 = 80 ∧
    setUpPointCloudFormatSize 5 16 64 ≠ 64 :=
  ⟨fun _ => rfl, rfl, by decide⟩

/-- C8 counterexample: a point with ring id 128 under `max_rings_num = 128` is
an out-of-bounds access of the partition loop — the outcome is neither a
`FormatError` nor a clipped partition. -/
theorem C8_counterexample :
    ring2indicesE 128 [128] = .error .outOfBounds ∧
    ring2indicesE 128 [128] ≠ .error .formatError ∧
    ∀ part, ring2indicesE 128 [128] ≠ .ok part := by
  have h : ring2indicesE 128 [128] = .error .outOfBounds := rfl
  refine ⟨h, by simp [h], fun part => by simp [h]⟩

/-- C8 amended: the ring partitioner performs no ring-id validation — whenever
some input point carries a ring id at or beyond `max_rings_num`, the partition
loop performs an out-of-bounds access (modelled `.error .outOfBounds`); it
neither raises a `FormatError` nor clips. -/
theorem C8_ring_oob (maxRings : Nat) (rings : List Nat)
    (h : ∃ r ∈ rings, maxRings ≤ r) :
    ring2indicesE maxRings rings = .error .outOfBounds :=
  ring2indicesE_oob maxRings rings h

/-- Witness for C8 at ring id 128 with 128 configured rings. -/
theorem C8_ring_oob_witness :
    (∃ r ∈ [(128 : Nat)], 128 ≤ r) ∧
      ring2indicesE 128 [128] = .error .outOfBounds :=
  ⟨⟨128, by decide, le_rfl⟩, C8_ring_oob 128 [128] ⟨128, by decide, le_rfl⟩⟩

/-- C5 counterexample: under the azimuth ROI mode with
`min_azimuth_deg = max_azimuth_deg = 135` the computed horizontal resolution
is 0, yet `createBinaryImage` completes normally and returns an image — no
`ConfigurationError` (or any failure) occurs. -/
theorem C5_counterexample :
    horizontalResolution degCfg = 0 ∧
    (createBinaryImage degCfg [degPt]).isSome = true := by
  constructor
  · with_unfolding_all decide
  · with_unfolding_all decide

/-- C5 amended: the visibility estimator has no zero/non-finite resolution
guard — for every configuration, including degenerate azimuth windows with
zero resolution, `createBinaryImage` completes and returns an image whenever
the ring ids are within `vertical_bins` (the zero divisions proceed with the
truncating-division convention of the embedding); no `ConfigurationError` is
ever raised. -/
theorem C5_no_resolution_guard (cfg : Config) (pts : List PointR)
    (h : ∀ p ∈ pts, p.ring < cfg.vertical_bins) :
    (createBinaryImage cfg pts).isSome = true := by
  obtain ⟨img, hi⟩ := createBinaryImage_isSome cfg pts h
  rw [hi]
  rfl

/-- Witness for C5 at the degenerate window configuration. -/
theorem C5_no_resolution_guard_witness :
    (∀ p ∈ [degPt], p.ring < degCfg.vertical_bins) ∧
      (createBinaryImage degCfg [degPt]).isSome = true :=
  ⟨by decide, C5_no_resolution_guard degCfg [degPt] (by decide)⟩

/-- C7 counterexample: under the default full azimuth window (resolution
1000), the per-ring histogram loop of `createBinaryImage` writes cells for the
first `horizontal_bins - 1 = 35` sectors only, not for all 36. -/
theorem C7_counterexample :
    azimuthWindow testCfg = (36000, 0) ∧
    horizontalResolution testCfg = 1000 ∧
    (ringWrites testCfg 36000 0 1000 c7Pts).map Prod.fst =
      List.range (horizontalBins - 1) ∧
    (ringWrites testCfg 36000 0 1000 c7Pts).map Prod.fst ≠
      List.range horizontalBins := by
  refine ⟨rfl, by with_unfolding_all decide, by with_unfolding_all decide,
    by with_unfolding_all decide⟩

/-- C7 amended: for every ring and every configuration, the histogram pass
computes a count and writes a cell for exactly the first
`horizontal_bins - 1` sectors, in increasing sector order (the loop bound is
`i < noise_frequency.size() - 1`, so the last sector's cell is never
written and stays 0). -/
theorem C7_sector_writes (cfg : Config) (maxAz minAz : ℚ) (res : Nat)
    (ringPts : List PointR) :
    (ringWrites cfg maxAz minAz res ringPts).map Prod.fst =
      List.range (horizontalBins - 1) :=
  ringWrites_cols cfg maxAz minAz res ringPts

/-- C3: for every frame whose ring ids are in range, every input point index
is assigned to exactly one ring partition slot (its total count over the
partition is 1), and for every ring the walks of the walk segmenter form a
consecutive cover of the traversed indices `[0, n-2]`: they are emitted in
increasing index order, are non-overlapping, and every traversed index belongs
to exactly one walk. -/
theorem C3_partition_and_walk_cover (cfg : Config) (pts : List PointR)
    (h : ∀ p ∈ pts, p.ring < cfg.max_rings_num) :
    (∃ part, ring2indicesE cfg.max_rings_num (pts.map PointR.ring) = .ok part ∧
      ∀ i, i < pts.length → countSum i part = 1) ∧
    (∀ ringPts : List PointR, 2 ≤ ringPts.length →
      ConsecFrom (ringWalks cfg ringPts) 0 (ringPts.length - 1) ∧
      ∀ k, k < ringPts.length - 1 →
        ∃! w : Nat × Nat, w ∈ ringWalks cfg ringPts ∧ w.1 ≤ k ∧ k ≤ w.2) := by
  constructor
  · obtain ⟨part, hp⟩ := ring2indicesE_ok cfg.max_rings_num (pts.map PointR.ring)
      (by intro r hr
          obtain ⟨p, hpmem, rfl⟩ := List.mem_map.mp hr
          exact h p hpmem)
    exact ⟨part, hp, fun i hi =>
      ring2indicesE_count cfg.max_rings_num _ part hp i (by simpa using hi)⟩
  · intro ringPts h2
    have hc := ringWalks_consecFrom cfg ringPts h2
    exact ⟨hc, fun k hk => consecFrom_mem_unique hc (Nat.zero_le k) (by omega)⟩

/-- Witness for C3 on a two-point, two-ring frame. -/
theorem C3_partition_and_walk_cover_witness :
    (∃ part, ring2indicesE cfg2R.max_rings_num (pts3.map PointR.ring) = .ok part ∧
      ∀ i, i < pts3.length → countSum i part = 1) ∧
    (∀ ringPts : List PointR, 2 ≤ ringPts.length →
      ConsecFrom (ringWalks cfg2R ringPts) 0 (ringPts.length - 1) ∧
      ∀ k, k < ringPts.length - 1 →
        ∃! w : Nat × Nat, w ∈ ringWalks cfg2R ringPts ∧ w.1 ≤ k ∧ k ≤ w.2) :=
  C3_partition_and_walk_cover cfg2R pts3 (by decide)

/-- C6 counterexample: with `noise_threshold = 2` and every histogram cell
equal to 2, no cell count is strictly above the threshold — yet the
binarization (`cv::inRange`, lower-inclusive) marks every cell filled and the
visibility is 0, not 1. -/
theorem C6_counterexample :
    (∀ row ∈ [List.replicate horizontalBins 2], ∀ c ∈ row, ¬ ((2 : Int) < (c : Int))) ∧
    1 - calculateFilledPixels (binarize 2 [List.replicate horizontalBins 2]) 1 horizontalBins = 0 ∧
    1 - calculateFilledPixels (binarize 2 [List.replicate horizontalBins 2]) 1 horizontalBins ≠ 1 := by
  refine ⟨by decide, by with_unfolding_all decide, by with_unfolding_all decide⟩

/-- C6 amended: for a `v × horizontal_bins` frequency image with `v > 0`, the
visibility scalar `1 - calculateFilledPixels(binarize(noise_threshold, image))`
is always in [0, 1]; it is 0 when every cell count is at least
`noise_threshold` (and at most 255, the clamp the pipeline guarantees), and 1
when every cell count is strictly below `noise_threshold` — the binarization
against the threshold is lower-inclusive. -/
theorem C6_visibility_range (freq : List (List Nat)) (thr : Int) (v : Nat)
    (hv : freq.length = v) (hh : ∀ r ∈ freq, r.length = horizontalBins)
    (hpos : 0 < v) :
    (0 ≤ 1 - calculateFilledPixels (binarize thr freq) v horizontalBins ∧
      1 - calculateFilledPixels (binarize thr freq) v horizontalBins ≤ 1) ∧
    ((∀ row ∈ freq, ∀ c ∈ row, thr ≤ (c : Int) ∧ (c : Int) ≤ 255) →
      1 - calculateFilledPixels (binarize thr freq) v horizontalBins = 0) ∧
    ((∀ row ∈ freq, ∀ c ∈ row, (c : Int) < thr) →
      1 - calculateFilledPixels (binarize thr freq) v horizontalBins = 1) := by
  have htot : ((binarize thr freq).map List.length).sum = v * horizontalBins := by
    rw [binarize_lengths]
    exact map_length_sum freq v horizontalBins hv hh
  have hD : (0 : ℚ) < ((v * horizontalBins : Nat) : ℚ) := by
    have : 0 < v * horizontalBins := by
      have : (0:Nat) < horizontalBins := by norm_num [horizontalBins]
      positivity
    exact_mod_cast this
  refine ⟨⟨?_, ?_⟩, ?_, ?_⟩
  · have hk : countNonZero (binarize thr freq) ≤ v * horizontalBins := by
      have := countNonZero_le_total (binarize thr freq)
      omega
    have : calculateFilledPixels (binarize thr freq) v horizontalBins ≤ 1 := by
      unfold calculateFilledPixels
      rw [div_le_one hD]
      exact_mod_cast hk
    linarith
  · have : 0 ≤ calculateFilledPixels (binarize thr freq) v horizontalBins := by
      unfold calculateFilledPixels
      positivity
    linarith
  · intro hfill
    have hk : countNonZero (binarize thr freq) = v * horizontalBins := by
      rw [countNonZero_binarize_all_filled thr freq hfill,
        map_length_sum freq v horizontalBins hv hh]
    unfold calculateFilledPixels
    rw [hk, div_self (ne_of_gt hD)]
    ring
  · intro hempty
    have hk : countNonZero (binarize thr freq) = 0 :=
      countNonZero_binarize_all_empty thr freq hempty
    unfold calculateFilledPixels
    rw [hk]
    simp

/-- Witness for C6 on a 1 × 36 image with all counts 3 and threshold 2. -/
theorem C6_visibility_range_witness :
    (0 ≤ 1 - calculateFilledPixels (binarize 2 [List.replicate horizontalBins 3]) 1 horizontalBins ∧
      1 - calculateFilledPixels (binarize 2 [List.replicate horizontalBins 3]) 1 horizontalBins ≤ 1) ∧
    ((∀ row ∈ [List.replicate horizontalBins 3], ∀ c : Nat, c ∈ row →
        (2 : Int) ≤ (c : Int) ∧ (c : Int) ≤ 255) →
      1 - calculateFilledPixels (binarize 2 [List.replicate horizontalBins 3]) 1 horizontalBins = 0) ∧
    ((∀ row ∈ [List.replicate horizontalBins 3], ∀ c : Nat, c ∈ row → (c : Int) < 2) →
      1 - calculateFilledPixels (binarize 2 [List.replicate horizontalBins 3]) 1 horizontalBins = 1) :=
  C6_visibility_range [List.replicate horizontalBins 3] 2 1 rfl (by decide) (by decide)

/-- C10: the noise buffer, the visibility scalar and the histogram image are
present in the frame output exactly when `publish_noise_points` is set; with
the flag unset a frame produces only the accepted buffer. -/
theorem C10_outputs_iff_flag (cfg : Config) (ti : TransformInfo)
    (pts : List PointR) (res : FilterResult)
    (h : faster_filter cfg ti pts = .ok res) :
    (res.noise.isSome ↔ cfg.publish_noise_points = true) ∧
    (res.visibility.isSome ↔ cfg.publish_noise_points = true) ∧
    (res.image.isSome ↔ cfg.publish_noise_points = true) := by
  unfold faster_filter at h
  cases hp : ring2indicesE cfg.max_rings_num (pts.map PointR.ring) with
  | error e => rw [hp] at h; cases h
  | ok part =>
    rw [hp] at h
    simp only [] at h
    by_cases hflag : cfg.publish_noise_points = true
    · rw [hflag] at h
      simp only [if_true] at h
      cases hi : createBinaryImage cfg pts with
      | none => rw [hi] at h; cases h
      | some img =>
        rw [hi] at h
        cases h
        simp [hflag]
    · have hfalse : cfg.publish_noise_points = false := by
        simpa using hflag
      rw [hfalse] at h
      simp only [Bool.false_eq_true, if_false] at h
      cases h
      simp [hfalse]

/-- Witness for C10 on an empty frame with the flag unset: only the accepted
buffer is produced. -/
theorem C10_outputs_iff_flag_witness :
    faster_filter cfgF ti0 [] = .ok ⟨[], none, none, none⟩ ∧
    ((FilterResult.mk [] none none none).noise.isSome ↔
      cfgF.publish_noise_points = true) :=
  ⟨rfl, (C10_outputs_iff_flag cfgF ti0 [] ⟨[], none, none, none⟩ rfl).1⟩

/-- C1 counterexample: for the synthetic single-ring frame of 5 points with
continuity throughout and point count 5 ≥ `num_points_threshold` = 4, the walk
segmenter produces the single walk [0, 3] — spanning only the first 4 points,
because the loop never includes a ring's final point — and the accepted buffer
holds 4 points, not 5 (the rejected buffer is empty as claimed). -/
theorem C1_counterexample :
    ringWalks testCfg c1Pts = [(0, 3)] ∧
    (acceptedOf (faster_filter testCfg ti0 c1Pts)).map List.length = some 4 ∧
    (acceptedOf (faster_filter testCfg ti0 c1Pts)).map List.length ≠ some 5 ∧
    noiseOf (faster_filter testCfg ti0 c1Pts) = some [] := by
  refine ⟨by with_unfolding_all decide, by with_unfolding_all decide,
    by with_unfolding_all decide, by with_unfolding_all decide⟩

/-- C1 amended: for a synthetic single-ring frame of 5 points in which the
continuity predicate holds for every consecutive pair and
`num_points_threshold ≤ 4`, the walk segmenter produces exactly one walk — it
spans the first 4 of the 5 points, since the final point of a ring is never
assigned to any walk — the cluster classifier marks it kept, the accepted
buffer contains exactly those 4 points, and the rejected buffer is empty. -/
theorem C1_round_trip (cfg : Config) (ti : TransformInfo)
    (p0 p1 p2 p3 p4 : PointR)
    (hr0 : p0.ring = 0) (hr1 : p1.ring = 0) (hr2 : p2.ring = 0)
    (hr3 : p3.ring = 0) (hr4 : p4.ring = 0)
    (hM : 0 < cfg.max_rings_num) (hV : 0 < cfg.vertical_bins)
    (hpub : cfg.publish_noise_points = true)
    (hthr : cfg.num_points_threshold ≤ 4)
    (hc0 : continuityB cfg p0 p1 = true) (hc1 : continuityB cfg p1 p2 = true)
    (hc2 : continuityB cfg p2 p3 = true) (hc3 : continuityB cfg p3 p4 = true) :
    ringWalks cfg [p0, p1, p2, p3, p4] = [(0, 3)] ∧
    ∃ res, faster_filter cfg ti [p0, p1, p2, p3, p4] = .ok res ∧
      res.accepted = [toOutputPoint ti p0, toOutputPoint ti p1,
        toOutputPoint ti p2, toOutputPoint ti p3] ∧
      res.noise = some [] := by
  have hall : ∀ p ∈ [p0, p1, p2, p3, p4], p.ring = 0 := by
    intro p hp
    simp only [List.mem_cons, List.not_mem_nil, or_false] at hp
    rcases hp with rfl | rfl | rfl | rfl | rfl <;> assumption
  have hwalks : ringWalks cfg [p0, p1, p2, p3, p4] = [(0, 3)] := by
    unfold ringWalks
    rw [ringWalksTagged_five cfg p0 p1 p2 p3 p4 hc0 hc1 hc2 hc3]
    rfl
  obtain ⟨res, img, heq, _, hacc, hnoise⟩ :=
    faster_filter_single_ring cfg ti [p0, p1, p2, p3, p4] hM hall hpub hV
  rw [processRing_five cfg ti p0 p1 p2 p3 p4 hc0 hc1 hc2 hc3 hthr] at hacc hnoise
  exact ⟨hwalks, res, heq, hacc, hnoise⟩

/-- Witness for C1 at the concrete 5-point frame and default thresholds. -/
theorem C1_round_trip_witness :
    ringWalks testCfg [c1a, c1b, c1c, c1d, c1e] = [(0, 3)] ∧
    ∃ res, faster_filter testCfg ti0 [c1a, c1b, c1c, c1d, c1e] = .ok res ∧
      res.accepted = [toOutputPoint ti0 c1a, toOutputPoint ti0 c1b,
        toOutputPoint ti0 c1c, toOutputPoint ti0 c1d] ∧
      res.noise = some [] :=
  C1_round_trip testCfg ti0 c1a c1b c1c c1d c1e rfl rfl rfl rfl rfl
    (by decide) (by decide) rfl (by decide)
    (by with_unfolding_all decide) (by with_unfolding_all decide)
    (by with_unfolding_all decide) (by with_unfolding_all decide)

/-- C2 counterexample: in the 3-point scenario (azimuth_diff 150 at the pair
2→3, `num_points_threshold` = 4, noise output enabled) only ONE walk, [0, 1],
is produced — the candidate tail walk [2, 2] is never emitted — and the single
rejected walk contributes TWO points to the noise buffer, both copies of its
first point, refuting "exactly one appended point per rejected walk"; the
accepted buffer is empty and the noise buffer has 2 points as claimed. -/
theorem C2_counterexample :
    ringWalks testCfg c2Pts = [(0, 1)] ∧
    ringWalks testCfg c2Pts ≠ [(0, 1), (2, 2)] ∧
    acceptedOf (faster_filter testCfg ti0 c2Pts) = some [] ∧
    noiseOf (faster_filter testCfg ti0 c2Pts) =
      some [toOutputPoint ti0 c2a, toOutputPoint ti0 c2a] ∧
    (noiseOf (faster_filter testCfg ti0 c2Pts)).map List.length ≠ some 1 := by
  refine ⟨by with_unfolding_all decide, by with_unfolding_all decide,
    by with_unfolding_all decide, by with_unfolding_all decide,
    by with_unfolding_all decide⟩

/-- C2 amended: in a 3-point ring where the pair 1→2 is continuous, the pair
2→3 has azimuth_diff 150, `num_points_threshold` = 4 and the first walk's
extent is below `object_length_threshold`, exactly one walk [0, 1] is produced
(the tail walk [2, 2] is never emitted); it is rejected, the accepted buffer is
empty, and — noise output being enabled — the noise buffer receives walk-size
copies of the walk's FIRST point: two points, both equal to point 1's output
record. -/
theorem C2_rejected_walks (cfg : Config) (ti : TransformInfo)
    (p0 p1 p2 : PointR)
    (hr0 : p0.ring = 0) (hr1 : p1.ring = 0) (hr2 : p2.ring = 0)
    (hM : 0 < cfg.max_rings_num) (hV : 0 < cfg.vertical_bins)
    (hpub : cfg.publish_noise_points = true)
    (hthr : cfg.num_points_threshold = 4)
    (hc0 : continuityB cfg p0 p1 = true)
    (haz : azimuthDiff p1.azimuth p2.azimuth = 150)
    (hext : distSq p0 p1 < cfg.object_length_threshold * cfg.object_length_threshold) :
    ringWalks cfg [p0, p1, p2] = [(0, 1)] ∧
    ∃ res, faster_filter cfg ti [p0, p1, p2] = .ok res ∧
      res.accepted = [] ∧
      res.noise = some [toOutputPoint ti p0, toOutputPoint ti p0] := by
  have hb : continuityB cfg p1 p2 = false := by
    unfold continuityB
    rw [haz]
    have h100 : ¬ ((150 : ℚ) < 100) := by norm_num
    rw [decide_eq_false h100, Bool.and_false]
  have hrej : isCluster cfg p0 p1 2 = false := by
    unfold isCluster
    rw [hthr]
    have h42 : decide (4 ≤ 2) = false := rfl
    rw [h42, decide_eq_false (not_le.mpr hext), Bool.or_false]
  have hall : ∀ p ∈ [p0, p1, p2], p.ring = 0 := by
    intro p hp
    simp only [List.mem_cons, List.not_mem_nil, or_false] at hp
    rcases hp with rfl | rfl | rfl <;> assumption
  have hwalks : ringWalks cfg [p0, p1, p2] = [(0, 1)] := by
    unfold ringWalks
    rw [ringWalksTagged_three cfg p0 p1 p2 hc0 hb]
    rfl
  obtain ⟨res, img, heq, _, hacc, hnoise⟩ :=
    faster_filter_single_ring cfg ti [p0, p1, p2] hM hall hpub hV
  rw [processRing_three cfg ti p0 p1 p2 hc0 hb hrej hpub] at hacc hnoise
  exact ⟨hwalks, res, heq, hacc, hnoise⟩

/-- Witness for C2 at the concrete 3-point frame and default thresholds. -/
theorem C2_rejected_walks_witness :
    ringWalks testCfg [c2a, c2b, c2c] = [(0, 1)] ∧
    ∃ res, faster_filter testCfg ti0 [c2a, c2b, c2c] = .ok res ∧
      res.accepted = [] ∧
      res.noise = some [toOutputPoint ti0 c2a, toOutputPoint ti0 c2a] :=
  C2_rejected_walks testCfg ti0 c2a c2b c2c rfl rfl rfl
    (by decide) (by decide) rfl rfl
    (by with_unfolding_all decide) (by with_unfolding_all decide)
    (by with_unfolding_all decide)

end RingOutlierFilter

